import Mathlib

/-!
# mvnfast: `rmvnCpp` (multivariate normal sampling)

A shallow embedding of `src/rmvnCpp.cpp`.

* Doubles are an arbitrary number type `α`; the definitions only use `0`, `+` and `*`
  (the operations the source applies to them).  Theorems that rewrite a sum assume a
  commutative ring, the others no law at all.
* Matrices are a pair of extents and an entry function; the output buffer is a
  two-index store updated cell by cell, the way the loops of the source write it.
* The library and host routines the source calls but does not define
  (`arma::chol`, `static_cast<uint64_t>`, the `std::mt19937_64` constructor,
  `normal(engine)`) are the fields of `Extern`; the host's uniform source is an
  explicit state `HostRNG` that `runif` advances.
* `cholSpec` models `arma::chol` from the design document: it fails exactly on the
  matrices that are not positive-definite and otherwise returns the upper factor.
-/

namespace Mvn

/-! ## Data model -/

/-- Failure kinds of the error taxonomy; `Failure` is any other exception
raised by a library or host routine and forwarded by the `catch` clauses. -/
inductive Error where
  | NotPositiveDefinite
  | DimensionMismatch
  | InvalidParameter
  | Failure
  deriving DecidableEq, Repr

/-- The element store of a matrix: `b i j` is the entry in row `i`, column `j`. -/
abbrev Buf (α : Type) := Nat → Nat → α

/-- `out(irow, icol) = v`: overwrite one cell. -/
def Buf.set {α : Type} (b : Buf α) (irow icol : Nat) (v : α) : Buf α :=
  fun i j => if i = irow ∧ j = icol then v else b i j

/-- An `arma::mat` / `NumericMatrix`: extents and entries.  `elem i j` is the unchecked
access `.at(i, j)` of the source (only meaningful inside the extents). -/
structure Mat (α : Type) where
  n_rows : Nat
  n_cols : Nat
  elem : Buf α

/-- Build a matrix from its rows (used for concrete inputs). -/
def Mat.ofRows {α : Type} [Zero α] (rows : List (List α)) : Mat α :=
  { n_rows := rows.length
    n_cols := (rows.headD []).length
    elem := fun i j => (rows.getD i []).getD j 0 }

/-- The host's uniform source (`runif`): `unif k` is the `k`-th value it hands out
(already scaled to the requested interval), `pos` counts the values consumed so far. -/
structure HostRNG (α : Type) where
  unif : Nat → α
  pos : Nat

/-- Routines used by `rmvnCpp` that are defined outside the repository. -/
structure Extern (α ε : Type) where
  /-- `arma::chol`: upper Cholesky factorisation, or the exception it throws. -/
  chol : Mat α → Except Error (Mat α)
  /-- `static_cast<uint64_t>` of a seed value. -/
  toUInt64 : α → Nat
  /-- `std::mt19937_64 engine(coreSeed)`; `ε` is the state of the engine together
  with its `std::normal_distribution`. -/
  mt19937_64 : Nat → ε
  /-- One evaluation of `normal(engine)`: the value drawn and the advanced state. -/
  normal : ε → α × ε
  /-- The value an unchecked read finds past the end of the seed vector. -/
  stray : α

/-! ## Cholesky provider (lines 29-36) -/

/-- `trimatu(A)`: the library insists on a square argument, copies the entries on and
above the diagonal and puts zero below it. -/
def trimatu {α : Type} [Zero α] (A : Mat α) : Except Error (Mat α) :=
  if A.n_rows = A.n_cols then
    .ok { n_rows := A.n_rows
          n_cols := A.n_cols
          elem := fun i j => if i ≤ j then A.elem i j else 0 }
  else .error .Failure

/-- Lines 30-36: `cholDec` is `trimatu(chol(sigma))` unless `isChol`,
in which case it is `trimatu(sigma)`. -/
def resolveFactor {α ε : Type} [Zero α] (ext : Extern α ε) (sigma : Mat α)
    (isChol : Bool) : Except Error (Mat α) :=
  if isChol = false then
    match ext.chol sigma with
    | .ok c => trimatu c
    | .error e => .error e
  else trimatu sigma

/-! ## Seeds (line 47, lines 58-62) -/

/-- `runif(k, 1.0, max)`: `k` successive values of the host source. -/
def runif {α : Type} (k : Nat) (host : HostRNG α) : List α × HostRNG α :=
  ((List.range k).map (fun i => host.unif (host.pos + i)),
   { unif := host.unif, pos := host.pos + k })

/-- `seeds[k]`, an unchecked read. -/
def seedAt {α ε : Type} (ext : Extern α ε) (seeds : List α) (k : Nat) : α :=
  seeds.getD k ext.stray

/-- Lines 58-62: `coreSeed` is `seeds[0]`, overwritten by
`seeds[omp_get_thread_num()]` under OpenMP. -/
def coreSeed {α ε : Type} (ext : Extern α ε) (SUPPORT_OPENMP : Bool) (seeds : List α)
    (thread : Nat) : Nat :=
  if SUPPORT_OPENMP then ext.toUInt64 (seedAt ext seeds thread)
  else ext.toUInt64 (seedAt ext seeds 0)

/-- Size of the team executing the region: `num_threads(ncores) if(ncores > 1)`
under OpenMP, a single thread otherwise. -/
def numThreads (SUPPORT_OPENMP : Bool) (ncores : Int) : Nat :=
  if SUPPORT_OPENMP ∧ 1 < ncores then ncores.toNat else 1

/-! ## Static schedule -/

/-- Modelled from the spec: the chunk size `⌈n/p⌉` of the static schedule; the
schedule is supplied by the OpenMP runtime, which is not part of the sources. -/
def chunkSize (n p : Nat) : Nat := (n + p - 1) / p

/-- Modelled from the spec: the rows `[t·⌈n/p⌉, min(n,(t+1)·⌈n/p⌉))` that thread `t`
of a team of `p` executes under `schedule(static)`, in increasing order; the
schedule is supplied by the OpenMP runtime, which is not part of the sources. -/
def staticRows (n p t : Nat) : List Nat :=
  List.range' (t * chunkSize n p) (min n ((t + 1) * chunkSize n p) - t * chunkSize n p)

/-- Iterations of `for (irow = 0; irow < n; irow++)` executed by one thread:
its share of the static schedule under OpenMP, all of them otherwise. -/
def threadRows (SUPPORT_OPENMP : Bool) (n p t : Nat) : List Nat :=
  if SUPPORT_OPENMP then staticRows n p t else List.range n

/-! ## Fill loop (lines 70-72) -/

/-- Lines 71-72 for one `irow`: `out(irow, icol) = normal(engine)` for `icol = 0..d-1`. -/
def fillRow {α ε : Type} (ext : Extern α ε) (d : Nat) (s : Buf α × ε) (irow : Nat) :
    Buf α × ε :=
  (List.range d).foldl
    (fun s icol => ((s.1.set irow icol (ext.normal s.2).1), (ext.normal s.2).2)) s

/-- Lines 70-72 over the rows of one thread. -/
def fillRows {α ε : Type} (ext : Extern α ε) (d : Nat) (rows : List Nat)
    (s : Buf α × ε) : Buf α × ε :=
  rows.foldl (fillRow ext d) s

/-! ## Triangular transform (lines 77-91) -/

/-- Lines 82-84: `acc = 0.0; for (ii = 0; ii <= icol; ii++) acc += tmp(irow,ii) * cholDec(ii,icol)`. -/
def accLoop {α : Type} [Zero α] [Add α] [Mul α] (tmp : Buf α) (cholDec : Mat α)
    (irow icol : Nat) : α :=
  (List.range (icol + 1)).foldl (fun acc ii => acc + tmp irow ii * cholDec.elem ii icol) 0

/-- Lines 80-88: the loop over `icol` storing `acc` into `work.at(icol)`;
`work` is a row vector, here its entry function. -/
def workLoop {α : Type} [Zero α] [Add α] [Mul α] (tmp : Buf α) (cholDec : Mat α)
    (d irow : Nat) : Nat → α :=
  (List.range d).foldl
    (fun work icol => fun j => if j = icol then accLoop tmp cholDec irow icol else work j)
    (fun _ => 0)

/-- Lines 80-90 for one `irow`: compute `work`, then
`tmp(span(irow), span::all) = work + mu` overwrites the `d` cells of the row. -/
def transformRow {α : Type} [Zero α] [Add α] [Mul α] (mu : List α) (cholDec : Mat α)
    (d : Nat) (tmp : Buf α) (irow : Nat) : Buf α :=
  fun i j =>
    if i = irow ∧ j < d then workLoop tmp cholDec d irow j + mu.getD j 0 else tmp i j

/-- Lines 77-91 over the rows of one thread. -/
def transformRows {α : Type} [Zero α] [Add α] [Mul α] (mu : List α) (cholDec : Mat α)
    (d : Nat) (rows : List Nat) (tmp : Buf α) : Buf α :=
  rows.foldl (transformRow mu cholDec d) tmp

/-! ## The region (lines 49-95) and the entry point -/

/-- First work-shared loop of the region: every thread of the team seeds its own
engine and fills its rows.  The threads write disjoint rows, so their effects are
composed in thread order. -/
def fillAll {α ε : Type} (ext : Extern α ε) (SUPPORT_OPENMP : Bool) (n d p : Nat)
    (seeds : List α) (out : Buf α) : Buf α :=
  (List.range p).foldl
    (fun b t =>
      (fillRows ext d (threadRows SUPPORT_OPENMP n p t)
        (b, ext.mt19937_64 (coreSeed ext SUPPORT_OPENMP seeds t))).1)
    out

/-- Second work-shared loop of the region, entered after the barrier that ends the
first: every thread transforms its rows. -/
def transformAll {α : Type} [Zero α] [Add α] [Mul α] (mu : List α) (cholDec : Mat α)
    (SUPPORT_OPENMP : Bool) (n d p : Nat) (tmp : Buf α) : Buf α :=
  (List.range p).foldl
    (fun b t => transformRows mu cholDec d (threadRows SUPPORT_OPENMP n p t) b)
    tmp

/-- The raw standard-normal draws the fill loop leaves in the output buffer
(`NumericMatrix out(n, d)` starts zero-filled). -/
def rawDraws {α ε : Type} [Zero α] (ext : Extern α ε) (SUPPORT_OPENMP : Bool) (n d : Nat)
    (ncores : Int) (host : HostRNG α) : Buf α :=
  fillAll ext SUPPORT_OPENMP n d (numThreads SUPPORT_OPENMP ncores)
    (runif ncores.toNat host).1 (fun _ _ => 0)

/-- `rmvnCpp(n_, mu_, sigma_, ncores_, isChol_)`.  The result is paired with the
state of the host's uniform source after the call.  In source order: the factor is
resolved (lines 29-36), the output is allocated (line 39; the host allocator
rejects a negative extent), the seeds are drawn (line 47; likewise for a negative
count), then the region runs and `out` is returned. -/
def rmvnCpp {α ε : Type} [Zero α] [Add α] [Mul α] (ext : Extern α ε)
    (SUPPORT_OPENMP : Bool) (n : Int) (mu : List α) (sigma : Mat α) (ncores : Int)
    (isChol : Bool) (host : HostRNG α) : Except Error (Mat α) × HostRNG α :=
  let d := mu.length
  match resolveFactor ext sigma isChol with
  | .error e => (.error e, host)
  | .ok cholDec =>
    if n < 0 then (.error .Failure, host)
    else if ncores < 0 then (.error .Failure, host)
    else
      let seeds := runif ncores.toNat host
      let p := numThreads SUPPORT_OPENMP ncores
      let out := fillAll ext SUPPORT_OPENMP n.toNat d p seeds.1 (fun _ _ => 0)
      let tmp := transformAll mu cholDec SUPPORT_OPENMP n.toNat d p out
      (.ok { n_rows := n.toNat, n_cols := d, elem := tmp }, seeds.2)

/-! ## Row-at-a-time sampling, as the design describes it -/

/-- Draw a length-`d` vector `z` from the engine: `z k` for `k < d`. -/
def drawVec {α ε : Type} [Zero α] (ext : Extern α ε) (d : Nat) (e : ε) : (Nat → α) × ε :=
  (List.range d).foldl
    (fun s k => ((fun j => if j = k then (ext.normal s.2).1 else s.1 j), (ext.normal s.2).2))
    (fun _ => 0, e)

/-- One target row, following the design (section 4.4): draw `z`, put
`y[j] = Σ_{k=0..j} z[k]·cholFactor[k][j]`, store `y + mean` as row `i`. -/
def sampleRow {α ε : Type} [Zero α] [Add α] [Mul α] (ext : Extern α ε) (mu : List α)
    (cholFactor : Mat α) (d : Nat) (s : Buf α × ε) (i : Nat) : Buf α × ε :=
  let z := drawVec ext d s.2
  ((fun i' j =>
      if i' = i ∧ j < d then
        (List.range (j + 1)).foldl (fun y k => y + z.1 k * cholFactor.elem k j) 0
          + mu.getD j 0
      else s.1 i' j),
   z.2)

/-- Rows `0..n-1` in increasing order, each drawn and transformed before the next. -/
def sampleRowwise {α ε : Type} [Zero α] [Add α] [Mul α] (ext : Extern α ε) (mu : List α)
    (cholFactor : Mat α) (n d : Nat) (e : ε) : Buf α :=
  ((List.range n).foldl (sampleRow ext mu cholFactor d) (fun _ _ => 0, e)).1

/-- The engine state after `k` draws. -/
def engineAfter {α ε : Type} (ext : Extern α ε) (e : ε) : Nat → ε
  | 0 => e
  | k + 1 => (ext.normal (engineAfter ext e k)).2

/-- The `k`-th value (0-based) of the standard-normal stream of an engine. -/
def normalStream {α ε : Type} (ext : Extern α ε) (e : ε) (k : Nat) : α :=
  (ext.normal (engineAfter ext e k)).1

/-! ## Concrete collaborators, for instances -/

/-- A rounded square root on the rationals: `√(p/q) = √(p·q) / q`, with the integer
root taken after scaling by `10¹²`; exact on squares of rationals, otherwise rounded
down, with an error below `10⁻⁶`. -/
def sqrtQ (q : ℚ) : ℚ :=
  (Nat.sqrt (q.num.toNat * q.den * 10 ^ 12) : ℚ) / ((q.den : ℚ) * 10 ^ 6)

/-! ### Upper Cholesky factorisation -/

/-- One elimination step on pivot `k`: the Schur complement
`a[i][j] - a[i][k]·a[k][j] / a[k][k]`. -/
def schurStep {α : Type} [LinearOrderedField α] (a : Buf α) (k : Nat) : Buf α :=
  fun i j => a i j - a i k * a k j / a k k

/-- The matrix after eliminating the pivots `0..k-1`. -/
def schurIter {α : Type} [LinearOrderedField α] (a : Buf α) : Nat → Buf α
  | 0 => a
  | k + 1 => schurStep (schurIter a k) k

/-- The `r` pivots met from position `k` on are all positive. -/
def pivotsPositive {α : Type} [LinearOrderedField α] (a : Buf α) (k : Nat) : Nat → Bool
  | 0 => true
  | r + 1 => decide (0 < a k k) && pivotsPositive (schurStep a k) (k + 1) r

/-- The entries inside the extents are symmetric. -/
def isSymmetric {α : Type} [LinearOrderedField α] (S : Mat α) : Bool :=
  (List.range S.n_rows).all fun i =>
    (List.range S.n_rows).all fun j => decide (S.elem i j = S.elem j i)

/-- The test the factorisation applies: square, symmetric, every pivot positive. -/
def isPosDef {α : Type} [LinearOrderedField α] (S : Mat α) : Bool :=
  decide (S.n_rows = S.n_cols) && isSymmetric S && pivotsPositive S.elem 0 S.n_rows

/-- The quadratic form `Σ_{i,j ∈ [k,m)} x[i]·a[i][j]·x[j]` of a trailing block. -/
def quadForm {α : Type} [LinearOrderedField α] (a : Buf α) (k m : Nat) (x : Nat → α) : α :=
  ∑ i ∈ Finset.Ico k m, ∑ j ∈ Finset.Ico k m, x i * a i j * x j

/-- A covariance is positive-definite: square, symmetric, and `xᵗ·S·x > 0` for every
vector `x` that is not zero. -/
def PosDef {α : Type} [LinearOrderedField α] (S : Mat α) : Prop :=
  S.n_rows = S.n_cols ∧
  (∀ i j : Nat, i < S.n_rows → j < S.n_rows → S.elem i j = S.elem j i) ∧
  ∀ x : Nat → α, (∃ i, i < S.n_rows ∧ x i ≠ 0) →
    0 < ∑ i ∈ Finset.range S.n_rows, ∑ j ∈ Finset.range S.n_rows, x i * S.elem i j * x j

/-- Modelled from the spec: the upper Cholesky factorisation of the linear-algebra
library (`arma::chol`, not part of the sources).  It fails with `NotPositiveDefinite`
if the matrix is not positive-definite (`isPosDef_iff`); otherwise it returns the
upper-triangular factor whose row `k` is `√a[k][k]` on the diagonal and
`a[k][j] / √a[k][k]` to its right, `a` being the Schur complement after `k` steps; for
it `Rᵗ·R = S` when `root` is exact on the pivots (`cholSpec_factor`).  `root` is the
square root of the number type. -/
def cholSpec {α : Type} [LinearOrderedField α] (root : α → α) (S : Mat α) :
    Except Error (Mat α) :=
  if isPosDef S = true then
    .ok { n_rows := S.n_rows
          n_cols := S.n_cols
          elem := fun k j =>
            if k = j then root ((schurIter S.elem k) k k)
            else if k < j then (schurIter S.elem k) k j / root ((schurIter S.elem k) k k)
            else 0 }
  else .error .NotPositiveDefinite

/-- Concrete collaborators: the modelled factorisation with the rounded root, seeds
truncated to naturals, and a counter engine whose `k`-th draw after seed `s` is
`s + k`. -/
def refExt : Extern ℚ Nat :=
  { chol := cholSpec sqrtQ
    toUInt64 := fun x => ⌊x⌋₊
    mt19937_64 := fun s => s
    normal := fun e => ((e : ℚ), e + 1)
    stray := 7 }

/-- A host source handing out `1, 2, 3, ...`. -/
def refHost : HostRNG ℚ := { unif := fun k => (k : ℚ) + 1, pos := 0 }

/-- Another host source: five values already consumed, the next one is `1`. -/
def refHost2 : HostRNG ℚ := { unif := fun k => if k = 5 then 1 else 0, pos := 5 }

/-- A positive-definite covariance, `[[1,1],[1,2]]`; its factor is `[[1,1],[0,1]]`. -/
def refSigma : Mat ℚ := Mat.ofRows [[1, 1], [1, 2]]

/-- The upper-triangular view of `refSigma`. -/
def refFactor : Mat ℚ :=
  { n_rows := 2, n_cols := 2, elem := fun i j => if i ≤ j then refSigma.elem i j else 0 }

/-- The singular covariance `[[1,1],[1,1]]`. -/
def refSingular : Mat ℚ := Mat.ofRows [[1, 1], [1, 1]]

/-- A 3-by-3 upper-triangular matrix, larger than a 2-element mean. -/
def refWide : Mat ℚ := Mat.ofRows [[1, 2, 3], [0, 1, 4], [0, 0, 1]]

/-- A mean of length 2. -/
def refMean : List ℚ := [10, 20]

/-! ## Lemmas: the transform loops -/

section Transform

variable {α : Type}

theorem foldl_flatMap_eq {β γ δ : Type} (g : β → γ → β) (f : δ → List γ) :
    ∀ (l : List δ) (b : β),
      (l.flatMap f).foldl g b = l.foldl (fun b t => (f t).foldl g b) b := by
  intro l
  induction l with
  | nil => intro b; simp
  | cons x xs ih => intro b; simp [List.foldl_append, ih]

theorem foldl_add_eq_sum [AddCommMonoid α] (f : Nat → α) (m : Nat) :
    (List.range m).foldl (fun acc ii => acc + f ii) 0 = ∑ k ∈ Finset.range m, f k := by
  induction m with
  | zero => simp
  | succ m ih => rw [List.range_succ, List.foldl_append, ih, Finset.sum_range_succ]; rfl

theorem accLoop_eq_sum [CommRing α] (tmp : Buf α) (cholDec : Mat α) (irow icol : Nat) :
    accLoop tmp cholDec irow icol
      = ∑ k ∈ Finset.range (icol + 1), tmp irow k * cholDec.elem k icol := by
  unfold accLoop
  exact foldl_add_eq_sum (fun k => tmp irow k * cholDec.elem k icol) (icol + 1)

theorem accLoop_congr [Zero α] [Add α] [Mul α] (tmp tmp' : Buf α) (cholDec : Mat α)
    (irow icol : Nat) (h : ∀ k, tmp irow k = tmp' irow k) :
    accLoop tmp cholDec irow icol = accLoop tmp' cholDec irow icol := by
  unfold accLoop
  have : (fun acc ii => acc + tmp irow ii * cholDec.elem ii icol)
      = (fun acc ii => acc + tmp' irow ii * cholDec.elem ii icol) := by
    funext acc ii; rw [h ii]
  rw [this]

theorem workLoop_eq [Zero α] [Add α] [Mul α] (tmp : Buf α) (cholDec : Mat α)
    (d irow j : Nat) :
    workLoop tmp cholDec d irow j = if j < d then accLoop tmp cholDec irow j else 0 := by
  unfold workLoop
  induction d with
  | zero => simp
  | succ d ih =>
    rw [List.range_succ, List.foldl_append]
    simp only [List.foldl_cons, List.foldl_nil]
    by_cases hj : j = d
    · subst hj; simp
    · rw [if_neg hj, ih]
      by_cases hlt : j < d
      · rw [if_pos hlt, if_pos (Nat.lt_succ_of_lt hlt)]
      · rw [if_neg hlt, if_neg (by omega)]

theorem transformRow_elem [Zero α] [Add α] [Mul α] (mu : List α) (cholDec : Mat α)
    (d : Nat) (tmp : Buf α) (irow i j : Nat) :
    transformRow mu cholDec d tmp irow i j
      = if i = irow ∧ j < d then accLoop tmp cholDec irow j + mu.getD j 0 else tmp i j := by
  unfold transformRow
  by_cases h : i = irow ∧ j < d
  · rw [if_pos h, if_pos h, workLoop_eq, if_pos h.2]
  · rw [if_neg h, if_neg h]

theorem transformRows_elem [Zero α] [Add α] [Mul α] (mu : List α) (cholDec : Mat α)
    (d : Nat) :
    ∀ (rows : List Nat) (tmp : Buf α) (i j : Nat), rows.Nodup →
      transformRows mu cholDec d rows tmp i j
        = if i ∈ rows ∧ j < d then accLoop tmp cholDec i j + mu.getD j 0 else tmp i j := by
  intro rows
  induction rows with
  | nil => intro tmp i j _; simp [transformRows]
  | cons r rs ih =>
    intro tmp i j hnd
    have hr : r ∉ rs := (List.nodup_cons.mp hnd).1
    have hrs : rs.Nodup := (List.nodup_cons.mp hnd).2
    have step : transformRows mu cholDec d (r :: rs) tmp
        = transformRows mu cholDec d rs (transformRow mu cholDec d tmp r) := rfl
    rw [step, ih _ i j hrs]
    by_cases hi : i ∈ rs
    · have hne : i ≠ r := fun h => hr (h ▸ hi)
      by_cases hj : j < d
      · rw [if_pos ⟨hi, hj⟩, if_pos ⟨List.mem_cons_of_mem _ hi, hj⟩]
        rw [accLoop_congr (transformRow mu cholDec d tmp r) tmp cholDec i j]
        intro k
        rw [transformRow_elem, if_neg (fun h => hne h.1)]
      · rw [if_neg (fun h => hj h.2), if_neg (fun h => hj h.2), transformRow_elem,
          if_neg (fun h => hj h.2)]
    · rw [if_neg (fun h => hi h.1), transformRow_elem]
      by_cases hir : i = r
      · subst hir
        by_cases hj : j < d
        · rw [if_pos ⟨rfl, hj⟩, if_pos ⟨List.mem_cons_self _ _, hj⟩]
        · rw [if_neg (fun h => hj h.2), if_neg (fun h => hj h.2)]
      · rw [if_neg (fun h => hir h.1), if_neg]
        intro h
        rcases List.mem_cons.mp h.1 with h1 | h1
        · exact hir h1
        · exact hi h1

end Transform

/-! ## Lemmas: the static schedule -/

section Schedule

theorem le_mul_chunkSize (n p : Nat) (hp : 1 ≤ p) : n ≤ p * chunkSize n p := by
  unfold chunkSize
  have h1 := Nat.div_add_mod (n + p - 1) p
  have h2 := Nat.mod_lt (n + p - 1) (show 0 < p from hp)
  generalize p * ((n + p - 1) / p) = q at h1 ⊢
  omega

theorem staticRows_concat (n p : Nat) :
    ∀ k : Nat, (List.range k).flatMap (staticRows n p)
      = List.range' 0 (min n (k * chunkSize n p)) := by
  intro k
  induction k with
  | zero => simp
  | succ k ih =>
    rw [List.range_succ, List.flatMap_append, ih]
    simp only [List.flatMap_cons, List.flatMap_nil, List.append_nil]
    unfold staticRows
    have hmul : (k + 1) * chunkSize n p = k * chunkSize n p + chunkSize n p := by ring
    rw [hmul]
    generalize k * chunkSize n p = a
    generalize chunkSize n p = c
    by_cases h : a ≤ n
    · rw [Nat.min_eq_right h]
      have := List.range'_append_1 0 a (min n (a + c) - a)
      rw [Nat.zero_add] at this
      rw [this]
      congr 1
      omega
    · have h0 : min n (a + c) - a = 0 := by omega
      rw [h0]
      simp only [List.range'_zero, List.append_nil]
      congr 1
      omega

theorem staticRows_all (n p : Nat) (hp : 1 ≤ p) :
    (List.range p).flatMap (staticRows n p) = List.range n := by
  rw [staticRows_concat, List.range_eq_range', Nat.min_eq_left (le_mul_chunkSize n p hp)]

theorem staticRows_single (n : Nat) : staticRows n 1 0 = List.range n := by
  have h := staticRows_all n 1 (Nat.le_refl 1)
  have h1 : List.range 1 = [0] := rfl
  rw [h1] at h
  simpa using h

theorem numThreads_pos (omp : Bool) (ncores : Int) : 1 ≤ numThreads omp ncores := by
  unfold numThreads
  split
  · rename_i h; omega
  · exact Nat.le_refl 1

theorem numThreads_seq (omp : Bool) (ncores : Int) (h : omp = false ∨ ncores = 1) :
    numThreads omp ncores = 1 := by
  unfold numThreads
  rcases h with h | h
  · subst h; simp
  · subst h; simp

/-- The rows of all threads of the team, in thread order, are the rows `0..n-1`. -/
theorem threadRows_all (omp : Bool) (n : Nat) (ncores : Int) :
    (List.range (numThreads omp ncores)).flatMap (threadRows omp n (numThreads omp ncores))
      = List.range n := by
  cases omp with
  | true =>
    have : threadRows true n (numThreads true ncores) = staticRows n (numThreads true ncores) := by
      funext t; simp [threadRows]
    rw [this]
    exact staticRows_all n _ (numThreads_pos true ncores)
  | false =>
    have h1 : numThreads false ncores = 1 := numThreads_seq false ncores (Or.inl rfl)
    rw [h1]
    have h2 : List.range 1 = [0] := rfl
    rw [h2]
    simp [threadRows]

end Schedule

/-! ## Lemmas: the region and the entry point -/

section Region

variable {α ε : Type}

theorem transformAll_eq [Zero α] [Add α] [Mul α] (mu : List α) (cholDec : Mat α)
    (omp : Bool) (n d : Nat) (ncores : Int) (tmp : Buf α) :
    transformAll mu cholDec omp n d (numThreads omp ncores) tmp
      = transformRows mu cholDec d (List.range n) tmp := by
  have h := foldl_flatMap_eq (transformRow mu cholDec d)
    (threadRows omp n (numThreads omp ncores)) (List.range (numThreads omp ncores)) tmp
  rw [threadRows_all] at h
  exact h.symm

theorem transformAll_elem [Zero α] [Add α] [Mul α] (mu : List α) (cholDec : Mat α)
    (omp : Bool) (n d : Nat) (ncores : Int) (tmp : Buf α) (i j : Nat) :
    transformAll mu cholDec omp n d (numThreads omp ncores) tmp i j
      = if i < n ∧ j < d then accLoop tmp cholDec i j + mu.getD j 0 else tmp i j := by
  rw [transformAll_eq, transformRows_elem mu cholDec d _ tmp i j (List.nodup_range n)]
  simp only [List.mem_range]

theorem trimatu_square [Zero α] (A : Mat α) (h : A.n_rows = A.n_cols) :
    trimatu A = .ok { n_rows := A.n_rows, n_cols := A.n_cols,
                      elem := fun i j => if i ≤ j then A.elem i j else 0 } := by
  unfold trimatu
  rw [if_pos h]

theorem trimatu_ok [Zero α] (A R : Mat α) (h : trimatu A = .ok R) :
    A.n_rows = A.n_cols ∧
      R = { n_rows := A.n_rows, n_cols := A.n_cols,
            elem := fun i j => if i ≤ j then A.elem i j else 0 } := by
  unfold trimatu at h
  by_cases hsq : A.n_rows = A.n_cols
  · rw [if_pos hsq] at h
    exact ⟨hsq, (Except.ok.inj h).symm⟩
  · rw [if_neg hsq] at h
    exact Except.noConfusion h

/-- Whatever branch resolved it, the factor is the upper-triangular view of a square
matrix. -/
theorem resolveFactor_ok [Zero α] (ext : Extern α ε) (sigma R : Mat α) (isChol : Bool)
    (h : resolveFactor ext sigma isChol = .ok R) : ∃ A : Mat α, trimatu A = .ok R := by
  unfold resolveFactor at h
  cases isChol with
  | true => exact ⟨sigma, by simpa using h⟩
  | false =>
    simp only [if_true] at h
    cases hc : ext.chol sigma with
    | ok c => rw [hc] at h; exact ⟨c, h⟩
    | error e => rw [hc] at h; exact Except.noConfusion h

theorem resolveFactor_lower [Zero α] (ext : Extern α ε) (sigma R : Mat α) (isChol : Bool)
    (h : resolveFactor ext sigma isChol = .ok R) (k j : Nat) (hkj : j < k) :
    R.elem k j = 0 := by
  obtain ⟨A, hA⟩ := resolveFactor_ok ext sigma R isChol h
  rw [(trimatu_ok A R hA).2]
  exact if_neg (by omega)

/-- Unfolding of `rmvnCpp` on the path that reaches `return out`. -/
theorem rmvnCpp_ok [Zero α] [Add α] [Mul α] (ext : Extern α ε) (omp : Bool) (n : Int)
    (mu : List α) (sigma : Mat α) (ncores : Int) (isChol : Bool) (host : HostRNG α)
    (R : Mat α) (hR : resolveFactor ext sigma isChol = .ok R) (hn : 0 ≤ n)
    (hc : 0 ≤ ncores) :
    rmvnCpp ext omp n mu sigma ncores isChol host
      = (.ok { n_rows := n.toNat, n_cols := mu.length,
               elem := transformAll mu R omp n.toNat mu.length (numThreads omp ncores)
                 (rawDraws ext omp n.toNat mu.length ncores host) },
         (runif ncores.toNat host).2) := by
  unfold rmvnCpp
  simp only [hR]
  rw [if_neg (by omega), if_neg (by omega)]
  rfl

/-- Unfolding of `rmvnCpp` when the factor cannot be resolved. -/
theorem rmvnCpp_error [Zero α] [Add α] [Mul α] (ext : Extern α ε) (omp : Bool) (n : Int)
    (mu : List α) (sigma : Mat α) (ncores : Int) (isChol : Bool) (host : HostRNG α)
    (e : Error) (hR : resolveFactor ext sigma isChol = .error e) :
    rmvnCpp ext omp n mu sigma ncores isChol host = (.error e, host) := by
  unfold rmvnCpp
  simp only [hR]

/-- The call depends on the covariance argument only through the resolved factor. -/
theorem rmvnCpp_congr [Zero α] [Add α] [Mul α] (ext : Extern α ε) (omp : Bool) (n : Int)
    (mu : List α) (sigma sigma' : Mat α) (ncores : Int) (isChol isChol' : Bool)
    (host : HostRNG α)
    (h : resolveFactor ext sigma isChol = resolveFactor ext sigma' isChol') :
    rmvnCpp ext omp n mu sigma ncores isChol host
      = rmvnCpp ext omp n mu sigma' ncores isChol' host := by
  unfold rmvnCpp
  rw [h]

end Region

/-! ## Lemmas: positive-definiteness and the modelled factorisation -/

section PosDefinite

variable {α : Type} [LinearOrderedField α]

theorem schurStep_row (a : Buf α) (k j : Nat) (hd : a k k ≠ 0) : schurStep a k k j = 0 := by
  unfold schurStep
  field_simp

theorem schurStep_col (a : Buf α) (k i : Nat) (hd : a k k ≠ 0) : schurStep a k i k = 0 := by
  unfold schurStep
  field_simp

theorem quadForm_drop (b : Buf α) (k m : Nat) (x : Nat → α) (hk : k < m)
    (hrow : ∀ j, b k j = 0) (hcol : ∀ i, b i k = 0) :
    quadForm b k m x = quadForm b (k + 1) m x := by
  unfold quadForm
  rw [Finset.sum_eq_sum_Ico_succ_bot hk]
  have h0 : ∑ j ∈ Finset.Ico k m, x k * b k j * x j = 0 := by
    apply Finset.sum_eq_zero
    intro j _
    rw [hrow j]; ring
  rw [h0, zero_add]
  apply Finset.sum_congr rfl
  intro i _
  rw [Finset.sum_eq_sum_Ico_succ_bot hk, hcol i]
  ring

theorem quadForm_schur (a : Buf α) (k m : Nat) (x : Nat → α) (hk : k < m)
    (hd : a k k ≠ 0) (hsym : ∀ i, k ≤ i → i < m → a i k = a k i) :
    quadForm a k m x
      = (∑ j ∈ Finset.Ico k m, a k j * x j) ^ 2 / a k k
        + quadForm (schurStep a k) (k + 1) m x := by
  rw [← quadForm_drop (schurStep a k) k m x hk
    (fun j => schurStep_row a k j hd) (fun i => schurStep_col a k i hd)]
  unfold quadForm
  have h1 : ∀ i j, x i * a i j * x j
      = (x i * a i k) * (a k j * x j) / a k k + x i * schurStep a k i j * x j := by
    intro i j
    unfold schurStep
    field_simp
    ring
  simp only [h1, Finset.sum_add_distrib]
  congr 1
  have h2 : ∑ i ∈ Finset.Ico k m, x i * a i k = ∑ j ∈ Finset.Ico k m, a k j * x j := by
    apply Finset.sum_congr rfl
    intro i hi
    rw [Finset.mem_Ico] at hi
    rw [hsym i hi.1 hi.2]; ring
  rw [sq]
  nth_rewrite 1 [← h2]
  rw [Finset.sum_mul_sum, Finset.sum_div]
  apply Finset.sum_congr rfl
  intro i _
  rw [Finset.sum_div]

theorem quadForm_congr (b : Buf α) (k m : Nat) (x y : Nat → α)
    (h : ∀ i, k ≤ i → i < m → x i = y i) : quadForm b k m x = quadForm b k m y := by
  unfold quadForm
  apply Finset.sum_congr rfl
  intro i hi
  rw [Finset.mem_Ico] at hi
  apply Finset.sum_congr rfl
  intro j hj
  rw [Finset.mem_Ico] at hj
  rw [h i hi.1 hi.2, h j hj.1 hj.2]

theorem quadForm_zero (b : Buf α) (k m : Nat) (x : Nat → α)
    (h : ∀ i, k ≤ i → i < m → x i = 0) : quadForm b k m x = 0 := by
  unfold quadForm
  apply Finset.sum_eq_zero
  intro i hi
  rw [Finset.mem_Ico] at hi
  apply Finset.sum_eq_zero
  intro j _
  rw [h i hi.1 hi.2]; ring

/-- Positive-definiteness of the trailing block `[k, m)` of `a`. -/
theorem pivotsPositive_iff :
    ∀ (r : Nat) (a : Buf α) (k : Nat),
      (∀ i j, k ≤ i → i < k + r → k ≤ j → j < k + r → a i j = a j i) →
      (pivotsPositive a k r = true ↔
        ∀ x : Nat → α, (∃ i, k ≤ i ∧ i < k + r ∧ x i ≠ 0) → 0 < quadForm a k (k + r) x) := by
  intro r
  induction r with
  | zero =>
    intro a k _
    constructor
    · rintro _ x ⟨i, h1, h2, _⟩
      omega
    · intro _; rfl
  | succ r ih =>
    intro a k hsym
    have hm : k + (r + 1) = (k + 1) + r := by omega
    have hk : k < k + (r + 1) := by omega
    have hsymk : ∀ i, k ≤ i → i < k + (r + 1) → a i k = a k i :=
      fun i h1 h2 => hsym i k h1 h2 (Nat.le_refl k) hk
    have hsym' : ∀ i j, k + 1 ≤ i → i < (k + 1) + r → k + 1 ≤ j → j < (k + 1) + r →
        schurStep a k i j = schurStep a k j i := by
      intro i j hi1 hi2 hj1 hj2
      unfold schurStep
      rw [hsym i j (by omega) (by omega) (by omega) (by omega),
        hsymk i (by omega) (by omega), hsymk j (by omega) (by omega)]
      ring
    have IH := ih (schurStep a k) (k + 1) hsym'
    rw [← hm] at IH
    show (decide (0 < a k k) && pivotsPositive (schurStep a k) (k + 1) r) = true ↔ _
    rw [Bool.and_eq_true, decide_eq_true_iff, IH]
    constructor
    · rintro ⟨hd, hrest⟩ x ⟨i, hi1, hi2, hxi⟩
      rw [quadForm_schur a k _ x hk (ne_of_gt hd) hsymk]
      have hL : 0 ≤ (∑ j ∈ Finset.Ico k (k + (r + 1)), a k j * x j) ^ 2 / a k k :=
        div_nonneg (sq_nonneg _) (le_of_lt hd)
      by_cases hex : ∃ i, k + 1 ≤ i ∧ i < k + (r + 1) ∧ x i ≠ 0
      · have := hrest x hex
        linarith
      · have hz : ∀ i, k + 1 ≤ i → i < k + (r + 1) → x i = 0 := by
          intro i' h1 h2
          by_contra hne
          exact hex ⟨i', h1, h2, hne⟩
        have hik : i = k := by
          by_contra hne
          exact hxi (hz i (by omega) (by omega))
        subst hik
        rw [quadForm_zero _ _ _ x hz, add_zero]
        have hsum : ∑ j ∈ Finset.Ico i (i + (r + 1)), a i j * x j = a i i * x i := by
          rw [Finset.sum_eq_sum_Ico_succ_bot hk]
          have : ∑ j ∈ Finset.Ico (i + 1) (i + (r + 1)), a i j * x j = 0 := by
            apply Finset.sum_eq_zero
            intro j hj
            rw [Finset.mem_Ico] at hj
            rw [hz j hj.1 (by omega)]; ring
          rw [this, add_zero]
        rw [hsum]
        have hx2 : 0 < x i ^ 2 := by positivity
        have : (a i i * x i) ^ 2 / a i i = a i i * x i ^ 2 := by
          field_simp
          ring
        rw [this]
        exact mul_pos hd hx2
    · intro hpd
      have hd : 0 < a k k := by
        have h := hpd (fun i => if i = k then 1 else 0) ⟨k, Nat.le_refl k, hk, by simp⟩
        have he : quadForm a k (k + (r + 1)) (fun i => if i = k then 1 else 0) = a k k := by
          unfold quadForm
          rw [Finset.sum_eq_single k]
          · rw [Finset.sum_eq_single k]
            · simp
            · intro j _ hj; simp [hj]
            · intro hnot; exact absurd (Finset.mem_Ico.mpr ⟨Nat.le_refl k, hk⟩) hnot
          · intro i _ hi
            apply Finset.sum_eq_zero
            intro j _
            simp [hi]
          · intro hnot; exact absurd (Finset.mem_Ico.mpr ⟨Nat.le_refl k, hk⟩) hnot
        rw [he] at h
        exact h
      refine ⟨hd, ?_⟩
      rintro x ⟨i, hi1, hi2, hxi⟩
      have hdne : a k k ≠ 0 := ne_of_gt hd
      have hq := hpd
        (fun t => if t = k then
            - (∑ j ∈ Finset.Ico (k + 1) (k + (r + 1)), a k j * x j) / a k k else x t)
        ⟨i, by omega, by omega, by
          have : i ≠ k := by omega
          simp only [this, if_false]
          exact hxi⟩
      rw [quadForm_schur a k _ _ hk hdne hsymk] at hq
      have hL : ∑ j ∈ Finset.Ico k (k + (r + 1)), a k j *
          (fun t => if t = k then
            - (∑ j ∈ Finset.Ico (k + 1) (k + (r + 1)), a k j * x j) / a k k else x t) j
          = 0 := by
        rw [Finset.sum_eq_sum_Ico_succ_bot hk]
        have h2 : ∑ j ∈ Finset.Ico (k + 1) (k + (r + 1)), a k j *
            (fun t => if t = k then
              - (∑ j ∈ Finset.Ico (k + 1) (k + (r + 1)), a k j * x j) / a k k else x t) j
            = ∑ j ∈ Finset.Ico (k + 1) (k + (r + 1)), a k j * x j := by
          apply Finset.sum_congr rfl
          intro j hj
          rw [Finset.mem_Ico] at hj
          have : j ≠ k := by omega
          simp only [this, if_false]
        rw [h2]
        simp only [if_true]
        field_simp
        ring
      rw [hL] at hq
      have hc : quadForm (schurStep a k) (k + 1) (k + (r + 1))
          (fun t => if t = k then
            - (∑ j ∈ Finset.Ico (k + 1) (k + (r + 1)), a k j * x j) / a k k else x t)
          = quadForm (schurStep a k) (k + 1) (k + (r + 1)) x := by
        apply quadForm_congr
        intro t ht1 _
        have : t ≠ k := by omega
        simp only [this, if_false]
      rw [hc] at hq
      simpa using hq

theorem isSymmetric_iff (S : Mat α) :
    isSymmetric S = true
      ↔ ∀ i j : Nat, i < S.n_rows → j < S.n_rows → S.elem i j = S.elem j i := by
  unfold isSymmetric
  simp only [List.all_eq_true, List.mem_range, decide_eq_true_iff]
  constructor
  · intro h i j hi hj; exact h i hi j hj
  · intro h i hi j hj; exact h i j hi hj

/-- The pivot test decides positive-definiteness. -/
theorem isPosDef_iff (S : Mat α) : isPosDef S = true ↔ PosDef S := by
  unfold isPosDef PosDef
  rw [Bool.and_eq_true, Bool.and_eq_true, decide_eq_true_iff, isSymmetric_iff, and_assoc]
  apply and_congr_right
  intro _
  apply and_congr_right
  intro hsym
  have h := pivotsPositive_iff S.n_rows S.elem 0
    (fun i j _ hi _ hj => hsym i j (by omega) (by omega))
  rw [h]
  simp only [Nat.zero_add, Nat.zero_le, true_and, quadForm, Finset.range_eq_Ico]

theorem isPosDef_false_iff (S : Mat α) : isPosDef S = false ↔ ¬ PosDef S := by
  rw [← isPosDef_iff, Bool.not_eq_true]

/-- The modelled factorisation fails, with `NotPositiveDefinite`, exactly on the
matrices that are not positive-definite. -/
theorem cholSpec_error_iff (root : α → α) (S : Mat α) :
    cholSpec root S = .error .NotPositiveDefinite ↔ ¬ PosDef S := by
  unfold cholSpec
  by_cases h : isPosDef S = true
  · rw [if_pos h]
    constructor
    · intro hh; exact Except.noConfusion hh
    · intro hh; exact absurd ((isPosDef_iff S).mp h) hh
  · rw [if_neg h]
    constructor
    · intro _ hpd; exact h ((isPosDef_iff S).mpr hpd)
    · intro _; rfl

theorem cholSpec_ok_iff (root : α → α) (S : Mat α) :
    (∃ R, cholSpec root S = .ok R) ↔ PosDef S := by
  unfold cholSpec
  by_cases h : isPosDef S = true
  · rw [if_pos h]
    exact ⟨fun _ => (isPosDef_iff S).mp h, fun _ => ⟨_, rfl⟩⟩
  · rw [if_neg h]
    constructor
    · rintro ⟨R, hR⟩; exact Except.noConfusion hR
    · intro hpd; exact absurd ((isPosDef_iff S).mpr hpd) h

theorem pivots_pos :
    ∀ (r : Nat) (a : Buf α) (k : Nat), pivotsPositive (schurIter a k) k r = true →
      ∀ t, t < r → 0 < (schurIter a (k + t)) (k + t) (k + t) := by
  intro r
  induction r with
  | zero => intro a k _ t ht; omega
  | succ r ih =>
    intro a k h t ht
    have h' : (decide (0 < (schurIter a k) k k)
        && pivotsPositive (schurStep (schurIter a k) k) (k + 1) r) = true := h
    rw [Bool.and_eq_true, decide_eq_true_iff] at h'
    cases t with
    | zero => exact h'.1
    | succ t =>
      have := ih a (k + 1) h'.2 t (by omega)
      have e : k + 1 + t = k + (t + 1) := by omega
      rw [e] at this
      exact this

theorem schurIter_symm (a : Buf α) (m : Nat)
    (hsym : ∀ i j, i < m → j < m → a i j = a j i) :
    ∀ k, k ≤ m → ∀ i j, i < m → j < m → schurIter a k i j = schurIter a k j i := by
  intro k
  induction k with
  | zero => intro _ i j hi hj; exact hsym i j hi hj
  | succ k ih =>
    intro hk i j hi hj
    show schurStep (schurIter a k) k i j = schurStep (schurIter a k) k j i
    unfold schurStep
    rw [ih (by omega) i j hi hj, ih (by omega) i k hi (by omega),
      ih (by omega) k j (by omega) hj]
    ring

theorem schurIter_eliminated (a : Buf α)  :
    ∀ k, (∀ t, t < k → schurIter a t t t ≠ 0) →
      ∀ t, t < k → (∀ j, schurIter a k t j = 0) ∧ (∀ i, schurIter a k i t = 0) := by
  intro k
  induction k with
  | zero => intro _ t ht; omega
  | succ k ih =>
    intro hd t ht
    by_cases htk : t = k
    · subst htk
      exact ⟨fun j => schurStep_row _ t j (hd t ht), fun i => schurStep_col _ t i (hd t ht)⟩
    · have IH := ih (fun t' ht' => hd t' (by omega)) t (by omega)
      constructor
      · intro j
        show schurStep (schurIter a k) k t j = 0
        unfold schurStep
        rw [IH.1 j, IH.1 k]; ring
      · intro i
        show schurStep (schurIter a k) k i t = 0
        unfold schurStep
        rw [IH.2 i, IH.2 k]; ring

theorem schurIter_telescope (a : Buf α) (i j : Nat) :
    ∀ K, a i j
      = ∑ k ∈ Finset.range K, schurIter a k i k * schurIter a k k j / schurIter a k k k
        + schurIter a K i j := by
  intro K
  induction K with
  | zero => simp [schurIter]
  | succ K ih =>
    rw [Finset.sum_range_succ]
    have : schurIter a (K + 1) i j
        = schurIter a K i j - schurIter a K i K * schurIter a K K j / schurIter a K K K := rfl
    rw [this]
    nth_rewrite 1 [ih]
    ring

/-- With an exact root on the pivots, the factor returned is upper-triangular and
`Rᵗ·R` is the matrix factorised. -/
theorem cholSpec_factor (root : α → α) (S R : Mat α) (h : cholSpec root S = .ok R)
    (hroot : ∀ k, k < S.n_rows →
      root (schurIter S.elem k k k) * root (schurIter S.elem k k k)
        = schurIter S.elem k k k) :
    (∀ k j : Nat, j < k → R.elem k j = 0) ∧
    ∀ i j : Nat, i < S.n_rows → j < S.n_rows →
      ∑ k ∈ Finset.range S.n_rows, R.elem k i * R.elem k j = S.elem i j := by
  unfold cholSpec at h
  by_cases hpd : isPosDef S = true
  · rw [if_pos hpd] at h
    have hR := (Except.ok.inj h).symm
    subst hR
    have hpd' := hpd
    unfold isPosDef at hpd'
    rw [Bool.and_eq_true, Bool.and_eq_true, decide_eq_true_iff, isSymmetric_iff] at hpd'
    obtain ⟨⟨_, hsym⟩, hpiv⟩ := hpd'
    have hpos : ∀ k, k < S.n_rows → 0 < schurIter S.elem k k k := by
      intro k hk
      have := pivots_pos S.n_rows S.elem 0 hpiv k hk
      rw [Nat.zero_add] at this
      exact this
    have hne : ∀ k, k < S.n_rows → schurIter S.elem k k k ≠ 0 :=
      fun k hk => ne_of_gt (hpos k hk)
    have hsymk := schurIter_symm S.elem S.n_rows hsym
    have hentry : ∀ k j, k < S.n_rows → k ≤ j →
        (if k = j then root (schurIter S.elem k k k)
          else if k < j then schurIter S.elem k k j / root (schurIter S.elem k k k)
          else 0)
        = schurIter S.elem k k j / root (schurIter S.elem k k k) := by
      intro k j hk hkj
      have hrk := hroot k hk
      have hrne : root (schurIter S.elem k k k) ≠ 0 := by
        intro h0
        rw [h0, mul_zero] at hrk
        exact hne k hk hrk.symm
      by_cases e : k = j
      · subst e
        rw [if_pos rfl]
        exact eq_div_of_mul_eq hrne hrk
      · rw [if_neg e, if_pos (by omega)]
    constructor
    · intro k j hkj
      show (if k = j then _ else if k < j then _ else (0 : α)) = 0
      rw [if_neg (by omega), if_neg (by omega)]
    · intro i j hi hj
      have htel := schurIter_telescope S.elem i j S.n_rows
      have hlast : schurIter S.elem S.n_rows i j = 0 :=
        (schurIter_eliminated S.elem S.n_rows hne i hi).1 j
      rw [hlast, add_zero] at htel
      rw [htel]
      apply Finset.sum_congr rfl
      intro k hk
      rw [Finset.mem_range] at hk
      have hrk := hroot k hk
      have hrne : root (schurIter S.elem k k k) ≠ 0 := by
        intro h0
        rw [h0, mul_zero] at hrk
        exact hne k hk hrk.symm
      dsimp only
      by_cases hki : k ≤ i
      · by_cases hkj : k ≤ j
        · rw [hentry k i hk hki, hentry k j hk hkj, hsymk k (by omega) i k hi hk]
          rw [div_mul_div_comm, hrk]
        · have hz : schurIter S.elem k k j = 0 :=
            (schurIter_eliminated S.elem k (fun t ht => hne t (by omega)) j (by omega)).2 k
          rw [if_neg (by omega : ¬ k = j), if_neg (by omega : ¬ k < j), hz]; ring
      · have hz : schurIter S.elem k i k = 0 :=
          (schurIter_eliminated S.elem k (fun t ht => hne t (by omega)) i (by omega)).1 k
        rw [if_neg (by omega : ¬ k = i), if_neg (by omega : ¬ k < i), hz]; ring
  · rw [if_neg hpd] at h
    exact Except.noConfusion h

end PosDefinite

/-! ## Claims about the factor and the transform -/

section Claims

variable {α ε : Type}

theorem sum_upper_eq_sum_all [CommRing α] (f : Nat → α) (j d : Nat) (hj : j < d)
    (hz : ∀ k, j < k → f k = 0) :
    ∑ k ∈ Finset.range (j + 1), f k = ∑ k ∈ Finset.range d, f k := by
  apply Finset.sum_subset
  · intro k hk
    rw [Finset.mem_range] at hk ⊢
    omega
  · intro k _ hk
    rw [Finset.mem_range] at hk
    exact hz k (by omega)

theorem trimatu_idem [Zero α] (A R : Mat α) (h : trimatu A = .ok R) :
    trimatu R = .ok R := by
  obtain ⟨hsq, hR⟩ := trimatu_ok A R h
  subst hR
  have hsq' : (Mat.mk A.n_rows A.n_cols
      (fun i j => if i ≤ j then A.elem i j else 0)).n_rows
      = (Mat.mk A.n_rows A.n_cols
      (fun i j => if i ≤ j then A.elem i j else 0)).n_cols := hsq
  rw [trimatu_square _ hsq']
  congr 2
  funext i j
  by_cases hij : i ≤ j
  · simp [hij]
  · simp [hij]

/-- C1: for every `n ≥ 0`, mean of length `d`, resolved factor `R` and raw draws `Z`
left in the buffer by the fill loop, the transform loop puts
`mean[j] + Σ_{k=0..j} Z[i][k]·R[k][j]` at every `(i, j)` with `i < n`, `j < d`
(the sum is over the values of row `i` before any row was overwritten), and
`rmvnCpp` returns the `n`-by-`d` matrix with these entries. -/
theorem rmvnCpp_triangular_entries [CommRing α] (ext : Extern α ε) (omp : Bool) (n : Nat)
    (mu : List α) (sigma : Mat α) (ncores : Nat) (isChol : Bool) (host : HostRNG α)
    (R : Mat α) (hR : resolveFactor ext sigma isChol = .ok R) :
    (∀ (Z : Buf α) (i j : Nat), i < n → j < mu.length →
        transformAll mu R omp n mu.length (numThreads omp ncores) Z i j
          = mu.getD j 0 + ∑ k ∈ Finset.range (j + 1), Z i k * R.elem k j) ∧
    ∃ out : Mat α,
      (rmvnCpp ext omp n mu sigma ncores isChol host).1 = .ok out ∧
      out.n_rows = n ∧ out.n_cols = mu.length ∧
      ∀ i j : Nat, i < n → j < mu.length →
        out.elem i j
          = mu.getD j 0 + ∑ k ∈ Finset.range (j + 1),
              rawDraws ext omp n mu.length ncores host i k * R.elem k j := by
  have key : ∀ (Z : Buf α) (i j : Nat), i < n → j < mu.length →
      transformAll mu R omp n mu.length (numThreads omp ncores) Z i j
        = mu.getD j 0 + ∑ k ∈ Finset.range (j + 1), Z i k * R.elem k j := by
    intro Z i j hi hj
    rw [transformAll_elem, if_pos ⟨hi, hj⟩, accLoop_eq_sum, add_comm]
  refine ⟨key, ?_⟩
  have h := rmvnCpp_ok ext omp (n : Int) mu sigma (ncores : Int) isChol host R hR
    (Int.ofNat_nonneg n) (Int.ofNat_nonneg ncores)
  rw [Int.toNat_ofNat, Int.toNat_ofNat] at h
  rw [h]
  exact ⟨_, rfl, rfl, rfl, fun i j hi hj => key _ i j hi hj⟩

/-- C2: under either `isChol` setting the triangular sum equals the full
row-times-matrix product with the resolved factor `R`, which is zero below the
diagonal: entry `(i, j)` of the output is `mean[j] + Σ_{k=0..d-1} Z[i][k]·R[k][j]`. -/
theorem rmvnCpp_full_product [CommRing α] (ext : Extern α ε) (omp : Bool) (n : Nat)
    (mu : List α) (sigma : Mat α) (ncores : Nat) (isChol : Bool) (host : HostRNG α)
    (R : Mat α) (hR : resolveFactor ext sigma isChol = .ok R) :
    (∀ k j : Nat, j < k → R.elem k j = 0) ∧
    (∀ (Z : Buf α) (i j : Nat), i < n → j < mu.length →
        transformAll mu R omp n mu.length (numThreads omp ncores) Z i j
          = mu.getD j 0 + ∑ k ∈ Finset.range mu.length, Z i k * R.elem k j) ∧
    ∃ out : Mat α,
      (rmvnCpp ext omp n mu sigma ncores isChol host).1 = .ok out ∧
      ∀ i j : Nat, i < n → j < mu.length →
        out.elem i j
          = mu.getD j 0 + ∑ k ∈ Finset.range mu.length,
              rawDraws ext omp n mu.length ncores host i k * R.elem k j := by
  have low : ∀ k j : Nat, j < k → R.elem k j = 0 :=
    fun k j hkj => resolveFactor_lower ext sigma R isChol hR k j hkj
  have key : ∀ (Z : Buf α) (i j : Nat), i < n → j < mu.length →
      transformAll mu R omp n mu.length (numThreads omp ncores) Z i j
        = mu.getD j 0 + ∑ k ∈ Finset.range mu.length, Z i k * R.elem k j := by
    intro Z i j hi hj
    rw [transformAll_elem, if_pos ⟨hi, hj⟩, accLoop_eq_sum, add_comm,
      sum_upper_eq_sum_all (fun k => Z i k * R.elem k j) j mu.length hj]
    intro k hk
    show Z i k * R.elem k j = 0
    rw [low k j hk, mul_zero]
  refine ⟨low, key, ?_⟩
  have h := rmvnCpp_ok ext omp (n : Int) mu sigma (ncores : Int) isChol host R hR
    (Int.ofNat_nonneg n) (Int.ofNat_nonneg ncores)
  rw [Int.toNat_ofNat, Int.toNat_ofNat] at h
  rw [h]
  exact ⟨_, rfl, fun i j hi hj => key _ i j hi hj⟩

/-- C3: when factorisation of `S` succeeds with factor `R`, resolving `R` with the
flag set gives `R` again, and `rmvnCpp` called with `S` and `isChol = false` returns
what `rmvnCpp` called with `R` and `isChol = true` returns, for the same `n`, mean,
`ncores` and host source. -/
theorem resolveFactor_idempotent [Zero α] [Add α] [Mul α] (ext : Extern α ε)
    (S R : Mat α) (h : resolveFactor ext S false = .ok R) :
    resolveFactor ext R true = resolveFactor ext S false ∧
    ∀ (omp : Bool) (n : Int) (mu : List α) (ncores : Int) (host : HostRNG α),
      rmvnCpp ext omp n mu S ncores false host = rmvnCpp ext omp n mu R ncores true host := by
  have h1 : resolveFactor ext R true = resolveFactor ext S false := by
    obtain ⟨A, hA⟩ := resolveFactor_ok ext S R false h
    rw [h]
    have : resolveFactor ext R true = trimatu R := by simp [resolveFactor]
    rw [this]
    exact trimatu_idem A R hA
  exact ⟨h1, fun omp n mu ncores host =>
    rmvnCpp_congr ext omp n mu S R ncores false true host h1.symm⟩

/-- C4: for a square `M`, resolution with `isChol = true` succeeds without consulting
the factorisation: the factor has the entries of `M` on and above the diagonal and
zero below it, so `rmvnCpp` with `isChol = true` returns the same for any two square
matrices that agree on and above the diagonal. -/
theorem resolveFactor_isChol_upper [Zero α] [Add α] [Mul α] (ext : Extern α ε)
    (M : Mat α) (hsq : M.n_rows = M.n_cols) :
    resolveFactor ext M true
      = .ok { n_rows := M.n_rows, n_cols := M.n_cols,
              elem := fun i j => if i ≤ j then M.elem i j else 0 } ∧
    ∀ M' : Mat α, M'.n_rows = M.n_rows → M'.n_cols = M.n_cols →
      (∀ i j : Nat, i ≤ j → M'.elem i j = M.elem i j) →
      ∀ (omp : Bool) (n : Int) (mu : List α) (ncores : Int) (host : HostRNG α),
        rmvnCpp ext omp n mu M' ncores true host = rmvnCpp ext omp n mu M ncores true host := by
  have hM : resolveFactor ext M true
      = .ok { n_rows := M.n_rows, n_cols := M.n_cols,
              elem := fun i j => if i ≤ j then M.elem i j else 0 } := by
    have : resolveFactor ext M true = trimatu M := by simp [resolveFactor]
    rw [this, trimatu_square M hsq]
  refine ⟨hM, ?_⟩
  intro M' hr hc hup omp n mu ncores host
  apply rmvnCpp_congr
  have : resolveFactor ext M' true = trimatu M' := by simp [resolveFactor]
  rw [hM, this, trimatu_square M' (by rw [hr, hc]; exact hsq), hr, hc]
  congr 2
  funext i j
  by_cases hij : i ≤ j
  · simp [hij, hup i j hij]
  · simp [hij]

/-- Whatever error the factorisation raises is what `rmvnCpp` fails with, before the
output is allocated and before any seed is drawn. -/
theorem rmvnCpp_chol_error [Zero α] [Add α] [Mul α] (ext : Extern α ε)
    (omp : Bool) (n : Int) (mu : List α) (sigma : Mat α) (ncores : Int)
    (host : HostRNG α) (e : Error) (h : ext.chol sigma = .error e) :
    resolveFactor ext sigma false = .error e ∧
    rmvnCpp ext omp n mu sigma ncores false host = (.error e, host) := by
  have h1 : resolveFactor ext sigma false = .error e := by
    simp [resolveFactor, h]
  exact ⟨h1, rmvnCpp_error ext omp n mu sigma ncores false host _ h1⟩

/-- C5: for every covariance that is not positive-definite the factorisation fails
with `NotPositiveDefinite`, so does factor resolution with `isChol = false`, and
`rmvnCpp` fails as a whole with that error, returning no matrix and leaving the host's
uniform source untouched (no seed is drawn). -/
theorem rmvnCpp_not_positive_definite [LinearOrderedField α] (ext : Extern α ε)
    (root : α → α) (omp : Bool) (n : Int) (mu : List α) (sigma : Mat α) (ncores : Int)
    (host : HostRNG α) (hnpd : ¬ PosDef sigma) :
    cholSpec root sigma = .error .NotPositiveDefinite ∧
    resolveFactor { ext with chol := cholSpec root } sigma false
      = .error .NotPositiveDefinite ∧
    rmvnCpp { ext with chol := cholSpec root } omp n mu sigma ncores false host
      = (.error .NotPositiveDefinite, host) := by
  have h : cholSpec root sigma = .error .NotPositiveDefinite :=
    (cholSpec_error_iff root sigma).mpr hnpd
  exact ⟨h, rmvnCpp_chol_error { ext with chol := cholSpec root } omp n mu sigma ncores
    host _ h⟩

end Claims

/-! ## Lemmas: the fill loop and the engine stream -/

section Fill

variable {α ε : Type}

theorem engineAfter_add (ext : Extern α ε) (e : ε) (a b : Nat) :
    engineAfter ext (engineAfter ext e a) b = engineAfter ext e (a + b) := by
  induction b with
  | zero => rfl
  | succ b ih =>
    show (ext.normal (engineAfter ext (engineAfter ext e a) b)).2
      = (ext.normal (engineAfter ext e (a + b))).2
    rw [ih]

theorem normalStream_add (ext : Extern α ε) (e : ε) (a b : Nat) :
    normalStream ext (engineAfter ext e a) b = normalStream ext e (a + b) := by
  unfold normalStream
  rw [engineAfter_add]

theorem fillRow_eq (ext : Extern α ε) (d : Nat) (b : Buf α) (e : ε) (irow : Nat) :
    fillRow ext d (b, e) irow
      = (fun i j => if i = irow ∧ j < d then normalStream ext e j else b i j,
         engineAfter ext e d) := by
  unfold fillRow
  induction d with
  | zero =>
    simp only [List.range_zero, List.foldl_nil]
    refine Prod.ext ?_ rfl
    funext i j
    simp
  | succ d ih =>
    rw [List.range_succ, List.foldl_append, ih]
    simp only [List.foldl_cons, List.foldl_nil]
    refine Prod.ext ?_ rfl
    funext i j
    dsimp only
    unfold Buf.set
    by_cases hi : i = irow
    · by_cases hj : j = d
      · subst hi; subst hj
        simp [normalStream]
      · by_cases hlt : j < d
        · simp [hi, hj, hlt, Nat.lt_succ_of_lt hlt]
        · have : ¬ j < d + 1 := by omega
          simp [hi, hj, hlt, this]
    · simp [hi]

theorem fillRows_range (ext : Extern α ε) (d : Nat) (b : Buf α) (e : ε) (n : Nat) :
    fillRows ext d (List.range n) (b, e)
      = (fun i j => if i < n ∧ j < d then normalStream ext e (i * d + j) else b i j,
         engineAfter ext e (n * d)) := by
  unfold fillRows
  induction n with
  | zero =>
    simp only [List.range_zero, List.foldl_nil, Nat.zero_mul]
    refine Prod.ext ?_ rfl
    funext i j
    simp
  | succ n ih =>
    rw [List.range_succ, List.foldl_append, ih]
    simp only [List.foldl_cons, List.foldl_nil]
    rw [fillRow_eq]
    refine Prod.ext ?_ ?_
    · funext i j
      show (if i = n ∧ j < d then normalStream ext (engineAfter ext e (n * d)) j
            else if i < n ∧ j < d then normalStream ext e (i * d + j) else b i j)
          = if i < n + 1 ∧ j < d then normalStream ext e (i * d + j) else b i j
      by_cases hj : j < d
      · by_cases hi : i = n
        · subst hi
          rw [if_pos ⟨rfl, hj⟩, if_pos ⟨Nat.lt_succ_self _, hj⟩, normalStream_add]
        · by_cases hlt : i < n
          · rw [if_neg (fun h => hi h.1), if_pos ⟨hlt, hj⟩, if_pos ⟨Nat.lt_succ_of_lt hlt, hj⟩]
          · rw [if_neg (fun h => hi h.1), if_neg (fun h => hlt h.1),
              if_neg (fun h => by omega)]
      · rw [if_neg (fun h => hj h.2), if_neg (fun h => hj h.2), if_neg (fun h => hj h.2)]
    · show engineAfter ext (engineAfter ext e (n * d)) d = engineAfter ext e ((n + 1) * d)
      rw [engineAfter_add, Nat.succ_mul]

theorem seedAt_runif_zero (ext : Extern α ε) (k : Nat) (host : HostRNG α) (hk : 1 ≤ k) :
    seedAt ext (runif k host).1 0 = host.unif host.pos := by
  obtain ⟨m, rfl⟩ : ∃ m, k = m + 1 := ⟨k - 1, by omega⟩
  unfold seedAt runif
  rw [List.range_succ_eq_map]
  simp

theorem threadRows_single (omp : Bool) (n : Nat) : threadRows omp n 1 0 = List.range n := by
  cases omp with
  | true => simp [threadRows, staticRows_single]
  | false => simp [threadRows]

theorem coreSeed_zero (ext : Extern α ε) (omp : Bool) (seeds : List α) :
    coreSeed ext omp seeds 0 = ext.toUInt64 (seedAt ext seeds 0) := by
  cases omp <;> simp [coreSeed]

/-- In sequential execution the raw draws are those of one engine, seeded with the
first value of the host source, filling rows `0..n-1` in order. -/
theorem rawDraws_seq [Zero α] (ext : Extern α ε) (omp : Bool) (n d : Nat) (ncores : Int)
    (host : HostRNG α) (hseq : omp = false ∨ ncores = 1) (hc : 1 ≤ ncores) :
    rawDraws ext omp n d ncores host
      = (fillRows ext d (List.range n)
          (fun _ _ => 0, ext.mt19937_64 (ext.toUInt64 (host.unif host.pos)))).1 := by
  unfold rawDraws fillAll
  rw [numThreads_seq omp ncores hseq]
  have h1 : List.range 1 = [0] := rfl
  rw [h1]
  simp only [List.foldl_cons, List.foldl_nil]
  rw [threadRows_single, coreSeed_zero, seedAt_runif_zero ext _ host (by omega)]

end Fill

/-! ## Lemmas: what each thread of the team writes -/

section Writes

variable {α ε : Type}

end Writes

/-! ## Claims about seeds, the schedule and the draw order -/

section Claims2

variable {α ε : Type}

theorem rmvnCpp_neg [Zero α] [Add α] [Mul α] (ext : Extern α ε) (omp : Bool) (n : Int)
    (mu : List α) (sigma : Mat α) (ncores : Int) (isChol : Bool) (host : HostRNG α)
    (R : Mat α) (hR : resolveFactor ext sigma isChol = .ok R) (h : n < 0 ∨ ncores < 0) :
    rmvnCpp ext omp n mu sigma ncores isChol host = (.error .Failure, host) := by
  unfold rmvnCpp
  simp only [hR]
  by_cases hn : n < 0
  · rw [if_pos hn]
  · rw [if_neg hn, if_pos (by omega)]

theorem rmvnCpp_ok_inv [Zero α] [Add α] [Mul α] (ext : Extern α ε) (omp : Bool) (n : Int)
    (mu : List α) (sigma : Mat α) (ncores : Int) (isChol : Bool) (host : HostRNG α)
    (out : Mat α) (h : (rmvnCpp ext omp n mu sigma ncores isChol host).1 = .ok out) :
    (∃ R, resolveFactor ext sigma isChol = .ok R) ∧ 0 ≤ n ∧ 0 ≤ ncores := by
  cases hR : resolveFactor ext sigma isChol with
  | error e =>
    rw [rmvnCpp_error ext omp n mu sigma ncores isChol host e hR] at h
    exact Except.noConfusion h
  | ok R =>
    refine ⟨⟨R, rfl⟩, ?_⟩
    by_contra hneg
    have hlt : n < 0 ∨ ncores < 0 := by omega
    rw [rmvnCpp_neg ext omp n mu sigma ncores isChol host R hR hlt] at h
    exact Except.noConfusion h

/-- In sequential execution the result does not depend on `ncores`, on the build or
on the host source beyond its next value, whether the call succeeds or fails. -/
theorem rmvnCpp_sequential_result_eq [Zero α] [Add α] [Mul α] (ext : Extern α ε)
    (omp₁ omp₂ : Bool) (n : Int) (mu : List α) (sigma : Mat α) (isChol : Bool)
    (ncores₁ ncores₂ : Int) (host₁ host₂ : HostRNG α)
    (hc₁ : 1 ≤ ncores₁) (hc₂ : 1 ≤ ncores₂)
    (hs₁ : omp₁ = false ∨ ncores₁ = 1) (hs₂ : omp₂ = false ∨ ncores₂ = 1)
    (hseed : host₁.unif host₁.pos = host₂.unif host₂.pos) :
    (rmvnCpp ext omp₁ n mu sigma ncores₁ isChol host₁).1
      = (rmvnCpp ext omp₂ n mu sigma ncores₂ isChol host₂).1 := by
  cases hR : resolveFactor ext sigma isChol with
  | error e =>
    rw [rmvnCpp_error ext omp₁ n mu sigma ncores₁ isChol host₁ e hR,
      rmvnCpp_error ext omp₂ n mu sigma ncores₂ isChol host₂ e hR]
  | ok R =>
    by_cases hn : n < 0
    · rw [rmvnCpp_neg ext omp₁ n mu sigma ncores₁ isChol host₁ R hR (Or.inl hn),
        rmvnCpp_neg ext omp₂ n mu sigma ncores₂ isChol host₂ R hR (Or.inl hn)]
    · rw [rmvnCpp_ok ext omp₁ n mu sigma ncores₁ isChol host₁ R hR (by omega) (by omega),
        rmvnCpp_ok ext omp₂ n mu sigma ncores₂ isChol host₂ R hR (by omega) (by omega)]
      simp only
      rw [transformAll_eq, transformAll_eq, rawDraws_seq ext omp₁ _ _ _ _ hs₁ hc₁,
        rawDraws_seq ext omp₂ _ _ _ _ hs₂ hc₂, hseed]

/-- C7: in sequential execution (no parallel support, or `ncores = 1`), on inputs whose
factor resolves and with `n ≥ 0`, two runs that agree on `n`, mean, covariance,
`isChol` and on seed index 0 both return the same matrix, the one computed by a
single engine seeded with seed index 0, whatever `ncores ≥ 1` and the remaining seeds
are; and each run has drawn exactly its `ncores` values from the host's uniform
source. -/
theorem rmvnCpp_sequential_seed0 [Zero α] [Add α] [Mul α] (ext : Extern α ε)
    (omp₁ omp₂ : Bool) (n : Int) (mu : List α) (sigma : Mat α) (isChol : Bool)
    (ncores₁ ncores₂ : Int) (host₁ host₂ : HostRNG α) (R : Mat α)
    (hR : resolveFactor ext sigma isChol = .ok R) (hn : 0 ≤ n)
    (hc₁ : 1 ≤ ncores₁) (hc₂ : 1 ≤ ncores₂)
    (hs₁ : omp₁ = false ∨ ncores₁ = 1) (hs₂ : omp₂ = false ∨ ncores₂ = 1)
    (hseed : host₁.unif host₁.pos = host₂.unif host₂.pos) :
    (rmvnCpp ext omp₁ n mu sigma ncores₁ isChol host₁).1
      = (rmvnCpp ext omp₂ n mu sigma ncores₂ isChol host₂).1 ∧
    ∃ out : Mat α,
      rmvnCpp ext omp₁ n mu sigma ncores₁ isChol host₁
        = (.ok out, { unif := host₁.unif, pos := host₁.pos + ncores₁.toNat }) ∧
      rmvnCpp ext omp₂ n mu sigma ncores₂ isChol host₂
        = (.ok out, { unif := host₂.unif, pos := host₂.pos + ncores₂.toNat }) ∧
      out.n_rows = n.toNat ∧ out.n_cols = mu.length ∧
      out.elem
        = transformRows mu R mu.length (List.range n.toNat)
            (fillRows ext mu.length (List.range n.toNat)
              (fun _ _ => 0, ext.mt19937_64 (ext.toUInt64 (host₁.unif host₁.pos)))).1 := by
  refine ⟨rmvnCpp_sequential_result_eq ext omp₁ omp₂ n mu sigma isChol ncores₁ ncores₂
    host₁ host₂ hc₁ hc₂ hs₁ hs₂ hseed, ?_⟩
  refine ⟨{ n_rows := n.toNat, n_cols := mu.length,
            elem := transformRows mu R mu.length (List.range n.toNat)
              (fillRows ext mu.length (List.range n.toNat)
                (fun _ _ => 0, ext.mt19937_64 (ext.toUInt64 (host₁.unif host₁.pos)))).1 },
    ?_, ?_, rfl, rfl, rfl⟩
  · rw [rmvnCpp_ok ext omp₁ n mu sigma ncores₁ isChol host₁ R hR hn (by omega),
      transformAll_eq, rawDraws_seq ext omp₁ _ _ _ _ hs₁ hc₁]
    rfl
  · rw [rmvnCpp_ok ext omp₂ n mu sigma ncores₂ isChol host₂ R hR hn (by omega),
      transformAll_eq, rawDraws_seq ext omp₂ _ _ _ _ hs₂ hc₂, hseed]
    rfl

end Claims2

/-! ## Claim about the draw order -/

section Claims3

variable {α ε : Type}

theorem drawVec_eq [Zero α] (ext : Extern α ε) (d : Nat) (e : ε) :
    drawVec ext d e
      = (fun j => if j < d then normalStream ext e j else 0, engineAfter ext e d) := by
  unfold drawVec
  induction d with
  | zero =>
    simp only [List.range_zero, List.foldl_nil]
    refine Prod.ext ?_ rfl
    funext j
    simp
  | succ d ih =>
    rw [List.range_succ, List.foldl_append, ih]
    simp only [List.foldl_cons, List.foldl_nil]
    refine Prod.ext ?_ rfl
    funext j
    dsimp only
    by_cases hj : j = d
    · subst hj
      simp [normalStream]
    · by_cases hlt : j < d
      · simp [hj, hlt, Nat.lt_succ_of_lt hlt]
      · have : ¬ j < d + 1 := by omega
        simp [hj, hlt, this]

/-- Closed form of the row-at-a-time sampler after `n` rows. -/
theorem sampleRows_range [Zero α] [Add α] [Mul α] (ext : Extern α ε) (mu : List α)
    (R : Mat α) (d : Nat) (e : ε) (n : Nat) :
    (List.range n).foldl (sampleRow ext mu R d) (fun _ _ => 0, e)
      = (fun i j =>
          if i < n ∧ j < d then
            (List.range (j + 1)).foldl
              (fun y k => y + normalStream ext e (i * d + k) * R.elem k j) 0 + mu.getD j 0
          else 0,
         engineAfter ext e (n * d)) := by
  induction n with
  | zero =>
    simp only [List.range_zero, List.foldl_nil, Nat.zero_mul]
    refine Prod.ext ?_ rfl
    funext i j
    simp
  | succ n ih =>
    rw [List.range_succ, List.foldl_append, ih]
    simp only [List.foldl_cons, List.foldl_nil]
    unfold sampleRow
    rw [drawVec_eq]
    refine Prod.ext ?_ ?_
    · funext i j
      dsimp only
      by_cases hj : j < d
      · by_cases hi : i = n
        · subst hi
          rw [if_pos ⟨rfl, hj⟩, if_pos ⟨Nat.lt_succ_self _, hj⟩]
          congr 1
          apply List.foldl_ext
          intro y k hk
          have hk' : k < d := by
            have := List.mem_range.mp hk
            omega
          rw [if_pos hk', normalStream_add]
        · by_cases hlt : i < n
          · rw [if_neg (fun h => hi h.1), if_pos ⟨hlt, hj⟩, if_pos ⟨Nat.lt_succ_of_lt hlt, hj⟩]
          · rw [if_neg (fun h => hi h.1), if_neg (fun h => hlt h.1),
              if_neg (fun h => by omega)]
      · rw [if_neg (fun h => hj h.2), if_neg (fun h => hj h.2), if_neg (fun h => hj h.2)]
    · show engineAfter ext (engineAfter ext e (n * d)) d = engineAfter ext e ((n + 1) * d)
      rw [engineAfter_add, Nat.succ_mul]

/-- Fill all rows, then transform all rows: the same closed form. -/
theorem transform_fill_range [Zero α] [Add α] [Mul α] (ext : Extern α ε) (mu : List α)
    (R : Mat α) (d : Nat) (e : ε) (n : Nat) :
    transformRows mu R d (List.range n) (fillRows ext d (List.range n) (fun _ _ => 0, e)).1
      = fun i j =>
          if i < n ∧ j < d then
            (List.range (j + 1)).foldl
              (fun y k => y + normalStream ext e (i * d + k) * R.elem k j) 0 + mu.getD j 0
          else 0 := by
  funext i j
  rw [transformRows_elem mu R d _ _ i j (List.nodup_range n), fillRows_range]
  simp only [List.mem_range]
  by_cases h : i < n ∧ j < d
  · rw [if_pos h, if_pos h]
    congr 1
    unfold accLoop
    apply List.foldl_ext
    intro y k hk
    have hk' : k < d := by
      have := List.mem_range.mp hk
      omega
    dsimp only
    rw [if_pos ⟨h.1, hk'⟩]
  · rw [if_neg h, if_neg h, if_neg h]

/-- C10: in sequential execution the raw draw at row `i`, column `j` is value number
`i·d + j` of the standard-normal stream of the engine seeded with seed index 0, and
`rmvnCpp` (fill every row, then transform every row) returns the matrix obtained by
drawing and transforming one row at a time in increasing row index. -/
theorem rmvnCpp_row_major [Zero α] [Add α] [Mul α] (ext : Extern α ε) (omp : Bool)
    (n : Nat) (mu : List α) (sigma : Mat α) (ncores : Int) (isChol : Bool)
    (host : HostRNG α) (R : Mat α) (hseq : omp = false ∨ ncores = 1) (hc : 1 ≤ ncores)
    (hR : resolveFactor ext sigma isChol = .ok R) :
    (∀ i j : Nat, i < n → j < mu.length →
        rawDraws ext omp n mu.length ncores host i j
          = normalStream ext (ext.mt19937_64 (ext.toUInt64 (host.unif host.pos)))
              (i * mu.length + j)) ∧
    (rmvnCpp ext omp n mu sigma ncores isChol host).1
      = .ok { n_rows := n, n_cols := mu.length,
              elem := sampleRowwise ext mu R n mu.length
                (ext.mt19937_64 (ext.toUInt64 (host.unif host.pos))) } := by
  constructor
  · intro i j hi hj
    rw [rawDraws_seq ext omp n mu.length ncores host hseq hc, fillRows_range]
    dsimp only
    rw [if_pos ⟨hi, hj⟩]
  · have h := rmvnCpp_ok ext omp (n : Int) mu sigma ncores isChol host R hR
      (Int.ofNat_nonneg n) (by omega)
    rw [Int.toNat_ofNat] at h
    rw [h]
    dsimp only
    rw [transformAll_eq, rawDraws_seq ext omp n mu.length ncores host hseq hc,
      transform_fill_range]
    unfold sampleRowwise
    rw [sampleRows_range]

end Claims3

/-! ## Claims about parameter and extent checks -/

section Claims4

variable {α ε : Type}

theorem accLoop_congr_factor [Zero α] [Add α] [Mul α] (tmp : Buf α) (R R' : Mat α)
    (irow icol : Nat) (h : ∀ k, k ≤ icol → R.elem k icol = R'.elem k icol) :
    accLoop tmp R irow icol = accLoop tmp R' irow icol := by
  unfold accLoop
  apply List.foldl_ext
  intro acc k hk
  have hk' : k ≤ icol := by
    have := List.mem_range.mp hk
    omega
  rw [h k hk']

theorem transformAll_congr_factor [Zero α] [Add α] [Mul α] (mu : List α) (R R' : Mat α)
    (omp : Bool) (n d : Nat) (ncores : Int) (tmp : Buf α)
    (h : ∀ k j, k ≤ j → j < d → R.elem k j = R'.elem k j) :
    transformAll mu R omp n d (numThreads omp ncores) tmp
      = transformAll mu R' omp n d (numThreads omp ncores) tmp := by
  funext i j
  rw [transformAll_elem, transformAll_elem]
  by_cases hij : i < n ∧ j < d
  · rw [if_pos hij, if_pos hij,
      accLoop_congr_factor tmp R R' i j (fun k hk => h k j hk hij.2)]
  · rw [if_neg hij, if_neg hij]

/-- C6 (as amended): `rmvnCpp` does not compare the extents of the covariance with
the length `d` of the mean.  Called with `isChol = true` and a square `m`-by-`m`
matrix `M`, `m ≥ d`, it does not fail: it returns the `n`-by-`d` matrix with entries
`mean[j] + Σ_{k=0..j} Z[i][k]·M[k][j]`, computed from the leading `d`-by-`d` block of
`M`, and returns the same for every such matrix with the same leading block. -/
theorem rmvnCpp_leading_block [CommRing α] (ext : Extern α ε) (omp : Bool) (n : Nat)
    (mu : List α) (M : Mat α) (ncores : Nat) (host : HostRNG α)
    (hsq : M.n_rows = M.n_cols) (_hd : mu.length ≤ M.n_rows) :
    (∃ out : Mat α,
      (rmvnCpp ext omp n mu M ncores true host).1 = .ok out ∧
      out.n_rows = n ∧ out.n_cols = mu.length ∧
      ∀ i j : Nat, i < n → j < mu.length →
        out.elem i j
          = mu.getD j 0 + ∑ k ∈ Finset.range (j + 1),
              rawDraws ext omp n mu.length ncores host i k * M.elem k j) ∧
    ∀ M' : Mat α, M'.n_rows = M'.n_cols → mu.length ≤ M'.n_rows →
      (∀ k j : Nat, k ≤ j → j < mu.length → M'.elem k j = M.elem k j) →
      rmvnCpp ext omp n mu M' ncores true host = rmvnCpp ext omp n mu M ncores true host := by
  have hres : ∀ A : Mat α, A.n_rows = A.n_cols →
      resolveFactor ext A true
        = .ok { n_rows := A.n_rows, n_cols := A.n_cols,
                elem := fun i j => if i ≤ j then A.elem i j else 0 } := by
    intro A hA
    have : resolveFactor ext A true = trimatu A := by simp [resolveFactor]
    rw [this, trimatu_square A hA]
  have hrun : ∀ A : Mat α, A.n_rows = A.n_cols →
      rmvnCpp ext omp n mu A ncores true host
        = (.ok { n_rows := n, n_cols := mu.length,
                 elem := transformAll mu
                   { n_rows := A.n_rows, n_cols := A.n_cols,
                     elem := fun i j => if i ≤ j then A.elem i j else 0 }
                   omp n mu.length (numThreads omp ncores)
                   (rawDraws ext omp n mu.length ncores host) },
           (runif ncores host).2) := by
    intro A hA
    have h := rmvnCpp_ok ext omp (n : Int) mu A (ncores : Int) true host _ (hres A hA)
      (Int.ofNat_nonneg n) (Int.ofNat_nonneg ncores)
    rw [Int.toNat_ofNat, Int.toNat_ofNat] at h
    exact h
  constructor
  · rw [hrun M hsq]
    refine ⟨_, rfl, rfl, rfl, ?_⟩
    intro i j hi hj
    dsimp only
    rw [transformAll_elem, if_pos ⟨hi, hj⟩, accLoop_eq_sum, add_comm]
    congr 1
    apply Finset.sum_congr rfl
    intro k hk
    have hk' : k ≤ j := by
      have := Finset.mem_range.mp hk
      omega
    dsimp only
    rw [if_pos hk']
  · intro M' hsq' _ hagree
    rw [hrun M hsq, hrun M' hsq']
    congr 3
    apply transformAll_congr_factor
    intro k j hkj hj
    dsimp only
    rw [if_pos hkj, if_pos hkj, hagree k j hkj hj]

/-- C6 (counterexample): a 3-by-3 covariance with a 2-element mean is accepted; the
call returns a 1-by-2 matrix computed from the leading 2-by-2 block (draws `1, 2`). -/
theorem rmvnCpp_no_dimension_check :
    (rmvnCpp refExt false 1 [0, 0] (Mat.ofRows [[1, 2, 3], [0, 1, 4], [0, 0, 1]]) 1 true
        refHost).1 ≠ .error .DimensionMismatch ∧
    ∃ out : Mat ℚ,
      (rmvnCpp refExt false 1 [0, 0] (Mat.ofRows [[1, 2, 3], [0, 1, 4], [0, 0, 1]]) 1 true
        refHost).1 = .ok out ∧
      out.n_rows = 1 ∧ out.n_cols = 2 ∧ out.elem 0 0 = 1 ∧ out.elem 0 1 = 4 := by
  constructor
  · have h := rmvnCpp_ok refExt false 1 [0, 0]
      (Mat.ofRows [[1, 2, 3], [0, 1, 4], [0, 0, 1]]) 1 true refHost _ rfl
      (by decide) (by decide)
    rw [h]
    exact fun h => Except.noConfusion h
  · refine ⟨_, rfl, rfl, rfl, ?_, ?_⟩
    · norm_num [transformAll, transformRows, transformRow, workLoop, accLoop, fillAll,
        fillRows, fillRow, numThreads, threadRows, coreSeed, seedAt, runif, refExt,
        refHost, Mat.ofRows, Buf.set, List.range_succ]
    · norm_num [transformAll, transformRows, transformRow, workLoop, accLoop, fillAll,
        fillRows, fillRow, numThreads, threadRows, coreSeed, seedAt, runif, refExt,
        refHost, Mat.ofRows, Buf.set, List.range_succ]

/-- C9 (the code at the failing input): with `ncores = 0` the call does not fail.
No seed is drawn, the read of `seeds[0]` finds the stray value `7` past the end of
the empty seed vector, the engine is seeded with it and a 1-by-1 matrix is returned. -/
theorem rmvnCpp_ncores_zero :
    (rmvnCpp refExt false 1 [0] (Mat.ofRows [[1]]) 0 true refHost).1
      ≠ .error .InvalidParameter ∧
    (runif 0 refHost).1 = [] ∧
    ∃ out : Mat ℚ,
      rmvnCpp refExt false 1 [0] (Mat.ofRows [[1]]) 0 true refHost = (.ok out, refHost) ∧
      out.n_rows = 1 ∧ out.n_cols = 1 ∧ out.elem 0 0 = 7 := by
  refine ⟨?_, rfl, ?_⟩
  · have h := rmvnCpp_ok refExt false 1 [0] (Mat.ofRows [[1]]) 0 true refHost _ rfl
      (by decide) (by decide)
    rw [h]
    exact fun h => Except.noConfusion h
  · refine ⟨_, rfl, rfl, rfl, ?_⟩
    norm_num [transformAll, transformRows, transformRow, workLoop, accLoop, fillAll,
      fillRows, fillRow, numThreads, threadRows, coreSeed, seedAt, runif, refExt,
      refHost, Mat.ofRows, Buf.set, List.range_succ]

end Claims4

/-! ## Instances of the theorems at concrete inputs -/

section Instances

theorem sqrtQ_one : sqrtQ 1 = 1 := by
  have h : Nat.sqrt 1000000000000 = 1000000 := by
    have : (1000000000000 : Nat) = 1000000 * 1000000 := by norm_num
    rw [this, Nat.sqrt_eq]
  simp [sqrtQ, h]
  norm_num

/-- The pivot test on four small matrices: `[[1,1],[1,2]]` and `[[2,1],[1,3/5]]` are
positive-definite, `[[1,1],[1,1]]` (singular) and `[[1/2,1],[1,3/2]]` (indefinite)
are not. -/
theorem isPosDef_instances :
    isPosDef refSigma = true ∧
    isPosDef (Mat.ofRows [[2, 1], [1, 3 / 5]] : Mat ℚ) = true ∧
    isPosDef refSingular = false ∧
    isPosDef (Mat.ofRows [[1 / 2, 1], [1, 3 / 2]] : Mat ℚ) = false := by
  refine ⟨?_, ?_, ?_, ?_⟩ <;>
    norm_num [isPosDef, isSymmetric, pivotsPositive, schurStep, refSigma, refSingular,
      Mat.ofRows, List.range_succ]

/-- The predicate itself on the two covariances used below. -/
theorem posDef_instances : PosDef refSigma ∧ ¬ PosDef refSingular :=
  ⟨(isPosDef_iff refSigma).mp isPosDef_instances.1,
   (isPosDef_false_iff refSingular).mp isPosDef_instances.2.2.1⟩

/-- The modelled factorisation of `[[1,1],[1,2]]` is `[[1,1],[0,1]]`. -/
theorem cholSpec_refSigma :
    ∃ R : Mat ℚ, cholSpec sqrtQ refSigma = .ok R ∧
      R.elem 0 0 = 1 ∧ R.elem 0 1 = 1 ∧ R.elem 1 0 = 0 ∧ R.elem 1 1 = 1 := by
  unfold cholSpec
  rw [if_pos isPosDef_instances.1]
  refine ⟨_, rfl, ?_, ?_, ?_, ?_⟩ <;>
    norm_num [schurIter, schurStep, refSigma, Mat.ofRows, sqrtQ_one]

theorem rmvnCpp_triangular_entries_witness :
    resolveFactor refExt refSigma true = .ok refFactor ∧
    ((∀ (Z : Buf ℚ) (i j : Nat), i < 3 → j < refMean.length →
        transformAll refMean refFactor true 3 refMean.length (numThreads true (2 : Nat)) Z i j
          = refMean.getD j 0 + ∑ k ∈ Finset.range (j + 1), Z i k * refFactor.elem k j) ∧
    ∃ out : Mat ℚ,
      (rmvnCpp refExt true (3 : Nat) refMean refSigma (2 : Nat) true refHost).1 = .ok out ∧
      out.n_rows = 3 ∧ out.n_cols = refMean.length ∧
      ∀ i j : Nat, i < 3 → j < refMean.length →
        out.elem i j
          = refMean.getD j 0 + ∑ k ∈ Finset.range (j + 1),
              rawDraws refExt true 3 refMean.length (2 : Nat) refHost i k
                * refFactor.elem k j) :=
  ⟨rfl, rmvnCpp_triangular_entries refExt true 3 refMean refSigma 2 true refHost refFactor rfl⟩

theorem rmvnCpp_full_product_witness :
    resolveFactor refExt refSigma true = .ok refFactor ∧
    ((∀ k j : Nat, j < k → refFactor.elem k j = 0) ∧
    (∀ (Z : Buf ℚ) (i j : Nat), i < 3 → j < refMean.length →
        transformAll refMean refFactor false 3 refMean.length (numThreads false (1 : Nat)) Z i j
          = refMean.getD j 0 + ∑ k ∈ Finset.range refMean.length, Z i k * refFactor.elem k j) ∧
    ∃ out : Mat ℚ,
      (rmvnCpp refExt false (3 : Nat) refMean refSigma (1 : Nat) true refHost).1 = .ok out ∧
      ∀ i j : Nat, i < 3 → j < refMean.length →
        out.elem i j
          = refMean.getD j 0 + ∑ k ∈ Finset.range refMean.length,
              rawDraws refExt false 3 refMean.length (1 : Nat) refHost i k
                * refFactor.elem k j) :=
  ⟨rfl, rmvnCpp_full_product refExt false 3 refMean refSigma 1 true refHost refFactor rfl⟩

theorem resolveFactor_idempotent_witness :
    ∃ R : Mat ℚ, resolveFactor refExt refSigma false = .ok R ∧
      resolveFactor refExt R true = resolveFactor refExt refSigma false ∧
      ∀ (omp : Bool) (n : Int) (mu : List ℚ) (ncores : Int) (host : HostRNG ℚ),
        rmvnCpp refExt omp n mu refSigma ncores false host
          = rmvnCpp refExt omp n mu R ncores true host := by
  have hpd : isPosDef refSigma = true := by
    norm_num [isPosDef, isSymmetric, pivotsPositive, schurStep, refSigma, Mat.ofRows,
      List.range_succ]
  have hchol : ∃ C : Mat ℚ, refExt.chol refSigma = .ok C ∧ C.n_rows = C.n_cols := by
    refine ⟨{ n_rows := refSigma.n_rows, n_cols := refSigma.n_cols,
              elem := fun k j =>
                if k = j then sqrtQ ((schurIter refSigma.elem k) k k)
                else if k < j then
                  (schurIter refSigma.elem k) k j / sqrtQ ((schurIter refSigma.elem k) k k)
                else 0 }, ?_, rfl⟩
    show cholSpec sqrtQ refSigma = _
    unfold cholSpec
    rw [if_pos hpd]
  obtain ⟨C, hC, hsq⟩ := hchol
  have h : resolveFactor refExt refSigma false
      = .ok { n_rows := C.n_rows, n_cols := C.n_cols,
              elem := fun i j => if i ≤ j then C.elem i j else 0 } := by
    simp [resolveFactor, hC, trimatu, hsq]
  exact ⟨_, h, resolveFactor_idempotent refExt refSigma _ h⟩

theorem resolveFactor_isChol_upper_witness :
    refSigma.n_rows = refSigma.n_cols ∧
    (resolveFactor refExt refSigma true
      = .ok { n_rows := refSigma.n_rows, n_cols := refSigma.n_cols,
              elem := fun i j => if i ≤ j then refSigma.elem i j else 0 } ∧
    ∀ M' : Mat ℚ, M'.n_rows = refSigma.n_rows → M'.n_cols = refSigma.n_cols →
      (∀ i j : Nat, i ≤ j → M'.elem i j = refSigma.elem i j) →
      ∀ (omp : Bool) (n : Int) (mu : List ℚ) (ncores : Int) (host : HostRNG ℚ),
        rmvnCpp refExt omp n mu M' ncores true host
          = rmvnCpp refExt omp n mu refSigma ncores true host) :=
  ⟨rfl, resolveFactor_isChol_upper refExt refSigma rfl⟩

theorem rmvnCpp_not_positive_definite_witness :
    ¬ PosDef refSingular ∧
    (cholSpec sqrtQ refSingular = .error .NotPositiveDefinite ∧
    resolveFactor { refExt with chol := cholSpec sqrtQ } refSingular false
      = .error .NotPositiveDefinite ∧
    rmvnCpp { refExt with chol := cholSpec sqrtQ } true 4 refMean refSingular 2 false refHost
      = (.error .NotPositiveDefinite, refHost)) := by
  have hnpd : ¬ PosDef refSingular := by
    rw [← isPosDef_false_iff]
    norm_num [isPosDef, isSymmetric, pivotsPositive, schurStep, refSingular, Mat.ofRows,
      List.range_succ]
  exact ⟨hnpd,
    rmvnCpp_not_positive_definite refExt sqrtQ true 4 refMean refSingular 2 refHost hnpd⟩

theorem rmvnCpp_leading_block_witness :
    refWide.n_rows = refWide.n_cols ∧ refMean.length ≤ refWide.n_rows ∧
    ((∃ out : Mat ℚ,
      (rmvnCpp refExt false (3 : Nat) refMean refWide (1 : Nat) true refHost).1 = .ok out ∧
      out.n_rows = 3 ∧ out.n_cols = refMean.length ∧
      ∀ i j : Nat, i < 3 → j < refMean.length →
        out.elem i j
          = refMean.getD j 0 + ∑ k ∈ Finset.range (j + 1),
              rawDraws refExt false 3 refMean.length (1 : Nat) refHost i k
                * refWide.elem k j) ∧
    ∀ M' : Mat ℚ, M'.n_rows = M'.n_cols → refMean.length ≤ M'.n_rows →
      (∀ k j : Nat, k ≤ j → j < refMean.length → M'.elem k j = refWide.elem k j) →
      rmvnCpp refExt false (3 : Nat) refMean M' (1 : Nat) true refHost
        = rmvnCpp refExt false (3 : Nat) refMean refWide (1 : Nat) true refHost) :=
  ⟨rfl, by decide,
    rmvnCpp_leading_block refExt false 3 refMean refWide 1 refHost rfl (by decide)⟩

theorem rmvnCpp_sequential_seed0_witness :
    resolveFactor refExt refSigma true = .ok refFactor ∧ (0 : Int) ≤ 4 ∧
    (1 : Int) ≤ 3 ∧ (1 : Int) ≤ 1 ∧ (false = false ∨ (3 : Int) = 1) ∧
    (true = false ∨ (1 : Int) = 1) ∧ refHost.unif refHost.pos = refHost2.unif refHost2.pos ∧
    ((rmvnCpp refExt false 4 refMean refSigma 3 true refHost).1
      = (rmvnCpp refExt true 4 refMean refSigma 1 true refHost2).1 ∧
    ∃ out : Mat ℚ,
      rmvnCpp refExt false 4 refMean refSigma 3 true refHost
        = (.ok out, { unif := refHost.unif, pos := refHost.pos + (3 : Int).toNat }) ∧
      rmvnCpp refExt true 4 refMean refSigma 1 true refHost2
        = (.ok out, { unif := refHost2.unif, pos := refHost2.pos + (1 : Int).toNat }) ∧
      out.n_rows = (4 : Int).toNat ∧ out.n_cols = refMean.length ∧
      out.elem
        = transformRows refMean refFactor refMean.length (List.range (4 : Int).toNat)
            (fillRows refExt refMean.length (List.range (4 : Int).toNat)
              (fun _ _ => 0,
               refExt.mt19937_64 (refExt.toUInt64 (refHost.unif refHost.pos)))).1) := by
  have hseed : refHost.unif refHost.pos = refHost2.unif refHost2.pos := by
    norm_num [refHost, refHost2]
  exact ⟨rfl, by decide, by decide, by decide, Or.inl rfl, Or.inr rfl, hseed,
    rmvnCpp_sequential_seed0 refExt false true 4 refMean refSigma true 3 1 refHost refHost2
      refFactor rfl (by decide) (by decide) (by decide) (Or.inl rfl) (Or.inr rfl) hseed⟩

theorem rmvnCpp_row_major_witness :
    (false = false ∨ (2 : Int) = 1) ∧ (1 : Int) ≤ 2 ∧
    resolveFactor refExt refSigma true = .ok refFactor ∧
    ((∀ i j : Nat, i < 3 → j < refMean.length →
        rawDraws refExt false 3 refMean.length 2 refHost i j
          = normalStream refExt
              (refExt.mt19937_64 (refExt.toUInt64 (refHost.unif refHost.pos)))
              (i * refMean.length + j)) ∧
    (rmvnCpp refExt false (3 : Nat) refMean refSigma 2 true refHost).1
      = .ok { n_rows := 3, n_cols := refMean.length,
              elem := sampleRowwise refExt refMean refFactor 3 refMean.length
                (refExt.mt19937_64 (refExt.toUInt64 (refHost.unif refHost.pos))) }) :=
  ⟨Or.inl rfl, by decide, rfl,
    rmvnCpp_row_major refExt false 3 refMean refSigma 2 true refHost refFactor
      (Or.inl rfl) (by decide) rfl⟩

end Instances

end Mvn
